import Mathlib

/-!
Verification development for the gophermart loyalty system.

The Go sources are shallowly embedded: the persisted Postgres store
(tables `orders`, `withdrawals`, plus the `users` ids needed by the
withdrawal lock) becomes an explicit `Store` value, SQL statements become
pure list operations, and the two stateful procedures that matter —
`CreateWithdrawal` and `processAccrualBatch` — become explicit
state-passing functions.  Monetary amounts are integer minor-units
(`Int`), as in the schema; the `float64` amounts appearing at the service
boundary are modelled by exact rationals (`ℚ`) with the Go `int64(x*100)`
conversion modelled as truncation toward zero of `x*100`.
-/

namespace Gophermart

/-- Order status, mirroring `model.OrderStatus`
(`NEW`, `PROCESSING`, `INVALID`, `PROCESSED`).  The spec calls these
`Pending`, `InProgress`, `Rejected`, `Scored` respectively. -/
inductive OStatus where
  | New
  | Processing
  | Invalid
  | Processed
deriving DecidableEq, Repr

/-- `Scored`/`Rejected` (`PROCESSED`/`INVALID`) are the terminal statuses. -/
def isTerminal : OStatus → Bool
  | .Invalid => true
  | .Processed => true
  | _ => false

/-- A row of the `orders` table:
`orders(number unique, user_id, status, accrual nullable, uploaded_at)`. -/
structure OrderRow where
  number : String
  userId : Int
  status : OStatus
  accrual : Option Int
  uploadedAt : Nat
deriving DecidableEq, Repr

/-- A row of the `withdrawals` table:
`withdrawals(user_id, order_number unique, sum, processed_at)`. -/
structure WithdrawalRow where
  userId : Int
  orderNumber : String
  sumCents : Int
  processedAt : Nat
deriving DecidableEq, Repr

/-- The persisted store: user ids plus the two ledger tables. -/
structure Store where
  users : List Int
  orders : List OrderRow
  withdrawals : List WithdrawalRow
deriving DecidableEq, Repr

/-- The storage-level uniqueness constraint `orders.number UNIQUE`. -/
def OrdersUnique (st : Store) : Prop :=
  (st.orders.map (fun o => o.number)).Nodup

instance (st : Store) : Decidable (OrdersUnique st) := by
  unfold OrdersUnique; infer_instance

/-- `SELECT user_id FROM orders WHERE number = $1` (unique index, so at
most one row). -/
def findOrder (orders : List OrderRow) (number : String) : Option OrderRow :=
  orders.find? (fun o => o.number == number)

/-- Result of `AddOrder`: either the `(alreadyExisted, nil)` pair or the
`ErrOrderOwnedByAnother` error. -/
inductive AddOrderResult where
  | ok (alreadyExists : Bool)
  | ownedByAnother
deriving DecidableEq, Repr

/-- `PostgresRepository.AddOrder`: one transaction doing
`INSERT ... ON CONFLICT (number) DO NOTHING` with status `NEW`, then
`SELECT user_id ... WHERE number`, committing, and finally comparing the
owner: same owner returns `!inserted`, another owner returns
`ErrOrderOwnedByAnother` (with the insert having been a no-op). -/
def AddOrder (st : Store) (userID : Int) (number : String) (now : Nat) :
    Store × AddOrderResult :=
  match findOrder st.orders number with
  | none =>
      ({ st with orders := st.orders ++ [⟨number, userID, .New, none, now⟩] },
       .ok false)
  | some row =>
      if row.userId = userID then (st, .ok true) else (st, .ownedByAnother)

/-- `SELECT COALESCE(SUM(accrual), 0) FROM orders WHERE user_id = $1 AND
status = 'PROCESSED'` — `NULL` accruals contribute nothing to `SUM`. -/
def accrualOf (orders : List OrderRow) (u : Int) : Int :=
  ((orders.filter (fun o => o.userId == u && o.status == OStatus.Processed)).map
    (fun o => o.accrual.getD 0)).sum

/-- `SELECT COALESCE(SUM(sum), 0) FROM withdrawals WHERE user_id = $1`. -/
def withdrawnOf (ws : List WithdrawalRow) (u : Int) : Int :=
  ((ws.filter (fun w => w.userId == u)).map (fun w => w.sumCents)).sum

/-- `PostgresRepository.GetBalance`: current is the accrual total minus
the withdrawn total, defensively floored at zero. -/
def GetBalance (st : Store) (u : Int) : Int × Int :=
  let accrualTotal := accrualOf st.orders u
  let withdrawnTotal := withdrawnOf st.withdrawals u
  let current := accrualTotal - withdrawnTotal
  (if current < 0 then 0 else current, withdrawnTotal)

/-- Errors of the withdrawal path: the service-level validation error
(`withdraw sum must be positive`), the repository's
`ErrInsufficientBalance`, the failed `SELECT ... FOR UPDATE` when the
user row is absent, and a unique violation on `withdrawals.order_number`. -/
inductive WErr where
  | validationFailed
  | insufficientBalance
  | userMissing
  | duplicateOrderNumber
deriving DecidableEq, Repr

/-- `PostgresRepository.CreateWithdrawal`: inside one transaction, lock
the user row (`SELECT 1 FROM users WHERE id = $1 FOR UPDATE`), recompute
the accrual and withdrawal totals, fail with `ErrInsufficientBalance`
when `sumCents > current` (rolling back, so the store is unchanged), and
otherwise insert the withdrawal row and commit.  The per-user row lock
serializes concurrent withdrawals of one user, so a sequence of calls is
the faithful model of concurrent requests. -/
def CreateWithdrawal (st : Store) (userID : Int) (orderNumber : String)
    (sumCents : Int) (now : Nat) : Store × Option WErr :=
  if userID ∈ st.users then
    let accrualTotal := accrualOf st.orders userID
    let withdrawnTotal := withdrawnOf st.withdrawals userID
    let current := accrualTotal - withdrawnTotal
    if sumCents > current then (st, some .insufficientBalance)
    else if st.withdrawals.any (fun w => w.orderNumber == orderNumber) then
      (st, some .duplicateOrderNumber)
    else
      ({ st with withdrawals :=
          st.withdrawals ++ [⟨userID, orderNumber, sumCents, now⟩] }, none)
  else (st, some .userMissing)

/-- The service's decimal-to-minor-units conversion `int64(x * 100)`
(`service.CreateWithdrawal` and `processAccrualBatch`) on the exact
value of `x`: Go's `int64` conversion truncates toward zero, and the
truncation toward zero of `x * 100 = (x.num * 100) / x.den` is the
T-division of its (not necessarily reduced) numerator `x.num * 100` by
its positive denominator `x.den`.

Caveat: the program multiplies in `float64` before converting, so on
values whose double-precision product rounds across an integer boundary
the compiled program and this exact-value model disagree — e.g. Go's
`int64(0.29 * 100)` is `28` while `toCents (29/100) = 29`.  No theorem
below relies on exactness of the conversion; the concrete amounts used
(`12.30`, `0.025`, whole currency units) are ones on which `float64` and
exact evaluation coincide, and sign (all that the withdrawal validation
needs) is preserved by both. -/
def toCents (q : ℚ) : Int :=
  (q.num * 100).tdiv q.den

/-- `Service.CreateWithdrawal`, abstracted over the repository call:
convert the decimal amount to minor-units and reject non-positive
amounts before any storage interaction. -/
def ServiceCreateWithdrawalWith
    (repoFn : Store → Int → String → Int → Nat → Store × Option WErr)
    (st : Store) (userID : Int) (order : String) (sum : ℚ) (now : Nat) :
    Store × Option WErr :=
  let sumCents := toCents sum
  if sumCents ≤ 0 then (st, some .validationFailed)
  else repoFn st userID order sumCents now

/-- `Service.CreateWithdrawal` composed with the real repository. -/
def ServiceCreateWithdrawal (st : Store) (userID : Int) (order : String)
    (sum : ℚ) (now : Nat) : Store × Option WErr :=
  ServiceCreateWithdrawalWith CreateWithdrawal st userID order sum now

/-- One withdrawal request as issued by a client. -/
structure WOp where
  userId : Int
  order : String
  sum : ℚ
  now : Nat

/-- A serialized sequence of withdrawal requests (the per-user
`FOR UPDATE` lock serializes concurrent ones). -/
def applyWithdrawOps (st : Store) : List WOp → Store
  | [] => st
  | op :: rest =>
      applyWithdrawOps
        (ServiceCreateWithdrawal st op.userId op.order op.sum op.now).1 rest

end Gophermart

namespace Gophermart

/-- The non-terminal filter of `GetOrdersForAccrual`:
`WHERE status IN ('NEW', 'PROCESSING')`. -/
def awaitingAccrual (o : OrderRow) : Bool :=
  o.status == OStatus.New || o.status == OStatus.Processing

/-- The comparison of `ORDER BY uploaded_at`: oldest submission first. -/
def submittedBefore (a b : OrderRow) : Prop :=
  a.uploadedAt ≤ b.uploadedAt

instance : DecidableRel submittedBefore := fun a b =>
  inferInstanceAs (Decidable (a.uploadedAt ≤ b.uploadedAt))

instance : IsTotal OrderRow submittedBefore :=
  ⟨fun a b => Nat.le_total a.uploadedAt b.uploadedAt⟩

instance : IsTrans OrderRow submittedBefore :=
  ⟨fun _ _ _ => Nat.le_trans⟩

/-- The rows produced by `GetOrdersForAccrual`'s query before projection:
`WHERE status IN ('NEW','PROCESSING') ORDER BY uploaded_at LIMIT $3`
(ties in `uploaded_at` are returned in an unspecified order by the
database; the model fixes one sort). -/
def fetchRows (st : Store) (limit : Nat) : List OrderRow :=
  ((st.orders.filter awaitingAccrual).insertionSort submittedBefore).take limit

/-- `PostgresRepository.GetOrdersForAccrual`: the fetched batch, each
entry an `OrderForAccrual{Number, Status}`. -/
def GetOrdersForAccrual (st : Store) (limit : Nat) : List (String × OStatus) :=
  (fetchRows st limit).map (fun o => (o.number, o.status))

/-- The row rewrite of `UpdateOrderAccrual`'s SQL: rows whose `number`
matches get the new status, and also the new accrual when one is given;
all other rows and all other columns are untouched. -/
def updRow (number : String) (status : OStatus) (accrualCents : Option Int)
    (r : OrderRow) : OrderRow :=
  if r.number = number then
    match accrualCents with
    | none => { r with status := status }
    | some c => { r with status := status, accrual := some c }
  else r

/-- `PostgresRepository.UpdateOrderAccrual`:
`UPDATE orders SET status = $2 WHERE number = $1` when `accrualCents` is
nil, and `UPDATE orders SET status = $2, accrual = $3 WHERE number = $1`
otherwise. -/
def UpdateOrderAccrual (orders : List OrderRow) (number : String)
    (status : OStatus) (accrualCents : Option Int) : List OrderRow :=
  orders.map (updRow number status accrualCents)

/-- The oracle's `200` response body
(`accrual.OrderAccrual{order, status, accrual?}`); the optional decimal
amount is modelled as an exact rational. -/
structure OrderAccrual where
  order : String
  status : String
  accrual : Option ℚ
deriving DecidableEq, Repr

/-- The four values returned by the plain accrual client's
`GetOrderAccrual`: the decoded body (nil unless `200`), the status code
(`0` on a network error), the parsed `Retry-After` pause (only for
`429`), and whether an error was returned. -/
structure AccrualReply where
  resp : Option OrderAccrual
  statusCode : Nat
  retryAfter : Nat
  isErr : Bool
deriving DecidableEq, Repr

/-- The `switch resp.Status` of `processAccrualBatch`:
`REGISTERED`/`PROCESSING` map to `PROCESSING`, `INVALID` to `INVALID`,
`PROCESSED` to `PROCESSED` persisting `int64(accrual*100)` when the
accrual is present, and any other status is ignored (no write). -/
def applyOracleStatus (orders : List OrderRow) (number : String)
    (resp : OrderAccrual) : List OrderRow :=
  if resp.status = "REGISTERED" ∨ resp.status = "PROCESSING" then
    UpdateOrderAccrual orders number .Processing none
  else if resp.status = "INVALID" then
    UpdateOrderAccrual orders number .Invalid none
  else if resp.status = "PROCESSED" then
    UpdateOrderAccrual orders number .Processed (resp.accrual.map toCents)
  else orders

/-- The per-order loop of `Service.processAccrualBatch` over the fetched
batch, with virtual time: an oracle call is recorded at the current
instant, a `429` with positive `retryAfter` advances the clock by that
pause before the next call (or, when the context is cancelled during the
pause, aborts the whole cycle), and every other reply either writes one
order row or skips the order.  Returns the final `orders` table and the
chronological list of `(number, instant)` oracle calls. -/
def runBatchAux (oracle : String → AccrualReply) (cancelled : Bool) :
    List (String × OStatus) → List OrderRow → Nat →
    List OrderRow × List (String × Nat)
  | [], orders, _ => (orders, [])
  | (n, _) :: rest, orders, now =>
      let r := oracle n
      if r.isErr = true then
        let p := runBatchAux oracle cancelled rest orders now
        (p.1, (n, now) :: p.2)
      else if r.statusCode = 0 then
        let p := runBatchAux oracle cancelled rest orders now
        (p.1, (n, now) :: p.2)
      else if r.statusCode = 429 then
        if 0 < r.retryAfter then
          if cancelled then (orders, [(n, now)])
          else
            let p := runBatchAux oracle cancelled rest orders (now + r.retryAfter)
            (p.1, (n, now) :: p.2)
        else
          let p := runBatchAux oracle cancelled rest orders now
          (p.1, (n, now) :: p.2)
      else
        match r.resp with
        | none =>
            let p := runBatchAux oracle cancelled rest orders now
            (p.1, (n, now) :: p.2)
        | some resp =>
            let p := runBatchAux oracle cancelled rest
                       (applyOracleStatus orders n resp) now
            (p.1, (n, now) :: p.2)

/-- `Service.processAccrualBatch`: fetch up to 100 awaiting orders and
process them sequentially. -/
def processAccrualBatch (oracle : String → AccrualReply) (cancelled : Bool)
    (st : Store) (now : Nat) : Store × List (String × Nat) :=
  let p := runBatchAux oracle cancelled (GetOrdersForAccrual st 100) st.orders now
  ({ st with orders := p.1 }, p.2)

/-- A reply to the oracle that pauses the cycle: no error, status `429`,
positive `Retry-After`. -/
def pausing (r : AccrualReply) : Bool :=
  !r.isErr && r.statusCode == 429 && decide (0 < r.retryAfter)

end Gophermart

namespace Gophermart

/-!
The accrual client the service calls: `accrual.Client` built on a plain
`http.Client{Timeout: 5 * time.Second}`, whose `GetOrderAccrual`
returns the four values `(resp, statusCode, retryAfter, err)` consumed
by `service.processAccrualBatch`.  One HTTP exchange is a `HttpReply`;
the client is given a stream of potential exchanges indexed by attempt
number and performs exactly one — the stream form lets the absence of
internal retries be stated as independence from every reply after the
first.  (The repository also carries a second, `go-retryablehttp`-based
client variant, but it is dead code: the service's call site uses the
four-value signature, the client tests exercise it, and `go.mod` marks
`go-retryablehttp` as an indirect dependency.)
-/

/-- One raw HTTP exchange with the oracle: transport error flag, status
code, the `Retry-After` header if present, and the decoded body of a
`200` (none models an undecodable body). -/
structure HttpReply where
  isErr : Bool
  statusCode : Nat
  retryAfterHeader : Option String
  body : Option OrderAccrual
deriving DecidableEq, Repr

/-- Go's `strconv.Atoi` on the relevant inputs: an optional sign
followed by at least one decimal digit; anything else does not parse.
(The model ignores `Atoi`'s 64-bit range error, which also fails to
parse in Go.) -/
def parseDigits : List Char → Option Nat
  | [] => none
  | cs =>
      cs.foldl
        (fun acc c =>
          match acc with
          | some v => if c.isDigit then some (v * 10 + (c.toNat - 48)) else none
          | none => none)
        (some 0)

/-- Integer parsing mirroring `strconv.Atoi` (sign handling). -/
def parseIntStr (s : String) : Option Int :=
  match s.toList with
  | '-' :: rest => (parseDigits rest).map (fun n => -(n : Int))
  | '+' :: rest => (parseDigits rest).map (fun n => (n : Int))
  | cs => (parseDigits cs).map (fun n => (n : Int))

/-- The `Retry-After` handling of `GetOrderAccrual` on a `429`: start
from zero, and only when the header is present, non-empty and parses as
an integer take that many seconds. -/
def parseRetryAfter (h : Option String) : Int :=
  match h with
  | none => 0
  | some v =>
      if v = "" then 0
      else
        match parseIntStr v with
        | some seconds => seconds
        | none => 0

/-- The four values returned by `accrual.Client.GetOrderAccrual`:
`(*OrderAccrual, int, time.Duration, error)`, the duration in whole
seconds as produced by the `Retry-After` parsing. -/
structure ClientReturn where
  resp : Option OrderAccrual
  statusCode : Nat
  retryAfter : Int
  isErr : Bool
deriving DecidableEq, Repr

/-- `accrual.Client.GetOrderAccrual` (the plain-`http.Client` one the
service calls): perform a single HTTP exchange and map it — a transport
error from `Do` returns `(nil, 0, 0, err)` at once; a `429` returns
`(nil, 429, Retry-After, nil)` at once; a `204` returns
`(nil, 204, 0, nil)`; any other non-`200` returns the `unexpected
status` error; a `200` decodes the body, a decode failure being an
error.  No retry of any kind happens inside the call: only `replies 0`
is ever consulted. -/
def GetOrderAccrual (replies : Nat → HttpReply) : ClientReturn :=
  let r := replies 0
  if r.isErr then ⟨none, 0, 0, true⟩
  else if r.statusCode == 429 then
    ⟨none, 429, parseRetryAfter r.retryAfterHeader, false⟩
  else if r.statusCode == 204 then ⟨none, 204, 0, false⟩
  else if !(r.statusCode == 200) then ⟨none, r.statusCode, 0, true⟩
  else
    match r.body with
    | some b => ⟨some b, 200, 0, false⟩
    | none => ⟨none, 200, 0, true⟩

end Gophermart

namespace Gophermart

/-- A non-positive exact amount converts to a non-positive number of
minor-units: truncation toward zero preserves sign. -/
theorem toCents_nonpos {q : ℚ} (hq : q ≤ 0) : toCents q ≤ 0 := by
  unfold toCents
  have hnum : q.num ≤ 0 := by
    by_contra h
    push_neg at h
    exact absurd (Rat.num_pos.mp h) (not_lt.mpr hq)
  have hden : (0 : Int) ≤ (q.den : Int) := Int.natCast_nonneg _
  have hmul : (0 : Int) ≤ -(q.num * 100) := by nlinarith
  have hpos : (0 : Int) ≤ (-(q.num * 100)).tdiv (q.den : Int) :=
    Int.tdiv_nonneg hmul hden
  rw [Int.neg_tdiv] at hpos
  omega

/-- C8: a withdrawal request whose decimal amount is not strictly
positive fails with the service-level validation error — never with
`ErrInsufficientBalance` — and this happens for every possible behaviour
of the repository, i.e. before any storage interaction, leaving the
store untouched. -/
theorem c8_nonpositive_amount_validation
    (repoFn : Store → Int → String → Int → Nat → Store × Option WErr)
    (st : Store) (userID : Int) (order : String) (sum : ℚ) (now : Nat)
    (hsum : sum ≤ 0) :
    ServiceCreateWithdrawalWith repoFn st userID order sum now
        = (st, some .validationFailed) ∧
    (ServiceCreateWithdrawalWith repoFn st userID order sum now).2
        ≠ some .insufficientBalance := by
  have h := toCents_nonpos hsum
  unfold ServiceCreateWithdrawalWith
  rw [if_pos h]
  exact ⟨rfl, by simp⟩

/-- Witness for C8 at the concrete amount `0` against the real
repository. -/
theorem c8_witness :
    ServiceCreateWithdrawalWith CreateWithdrawal ⟨[1], [], []⟩ 1 "x" 0 5
        = (⟨[1], [], []⟩, some .validationFailed) :=
  (c8_nonpositive_amount_validation CreateWithdrawal ⟨[1], [], []⟩ 1 "x" 0 5
    (le_refl 0)).1

/-- C9: inside the serialized per-user section, a request whose amount
exceeds the recomputed current balance fails with
`ErrInsufficientBalance` and the transaction rolls back: the returned
store is exactly the input store, so no withdrawal row is created and
orders and withdrawals are untouched. -/
theorem c9_insufficient_funds_atomic
    (st : Store) (userID : Int) (orderNumber : String) (sumCents : Int)
    (now : Nat) (huser : userID ∈ st.users)
    (hover : accrualOf st.orders userID - withdrawnOf st.withdrawals userID
               < sumCents) :
    CreateWithdrawal st userID orderNumber sumCents now
        = (st, some .insufficientBalance) := by
  simp only [CreateWithdrawal]
  rw [if_pos huser, if_pos hover]

/-- Witness for C9: a user with `100` minor-units accrued requesting
`150`. -/
theorem c9_witness :
    CreateWithdrawal ⟨[1], [⟨"4539578763621486", 1, .Processed, some 100, 0⟩], []⟩
        1 "w1" 150 3
      = (⟨[1], [⟨"4539578763621486", 1, .Processed, some 100, 0⟩], []⟩,
         some .insufficientBalance) :=
  c9_insufficient_funds_atomic
    ⟨[1], [⟨"4539578763621486", 1, .Processed, some 100, 0⟩], []⟩
    1 "w1" 150 3 (by decide) (by decide)

/-- C10: the reconciliation write path is frame-preserving:
`UpdateOrderAccrual` rewrites each row with `updRow`, which never
changes `number`, `user_id` or `uploaded_at`, leaves rows with a
different number entirely untouched, and — when called with a nil
accrual, as in the `registered`/`processing`/`invalid` cases — changes
only the status and keeps any previously stored accrual. -/
theorem c10_update_order_accrual_frame (orders : List OrderRow)
    (number : String) (status : OStatus) (accrualCents : Option Int) :
    UpdateOrderAccrual orders number status accrualCents
        = orders.map (updRow number status accrualCents) ∧
    (∀ r : OrderRow,
      (updRow number status accrualCents r).number = r.number ∧
      (updRow number status accrualCents r).userId = r.userId ∧
      (updRow number status accrualCents r).uploadedAt = r.uploadedAt) ∧
    (∀ r : OrderRow, r.number ≠ number →
      updRow number status accrualCents r = r) ∧
    (accrualCents = none → ∀ r : OrderRow,
      (updRow number status accrualCents r).accrual = r.accrual ∧
      updRow number status accrualCents r
        = { r with status := if r.number = number then status else r.status }) := by
  refine ⟨rfl, ?_, ?_, ?_⟩
  · intro r
    unfold updRow
    by_cases h : r.number = number <;> cases accrualCents <;> simp [h]
  · intro r h
    unfold updRow
    simp [h]
  · rintro rfl r
    unfold updRow
    by_cases h : r.number = number <;> simp [h]

/-- Witness for C10: a nil-accrual update to another order's number
leaves a `Scored` row's stored accrual unchanged. -/
theorem c10_witness :
    (updRow "b" .Processing none ⟨"a", 1, .Processed, some 500, 7⟩).accrual
        = some 500 :=
  ((c10_update_order_accrual_frame [] "b" .Processing none).2.2.2 rfl
    ⟨"a", 1, .Processed, some 500, 7⟩).1

example :
    (AddOrder ⟨[1], [], []⟩ 1 "79927398713" 5).2 = .ok false := by decide

example :
    (AddOrder ⟨[1], [⟨"79927398713", 2, .New, none, 1⟩], []⟩ 1
      "79927398713" 5).2 = .ownedByAnother := by decide

example : toCents (Rat.divInt 123 10) = 1230 := by decide

example : toCents (Rat.divInt 1 40) = 2 := by decide

example :
    CreateWithdrawal ⟨[1], [⟨"4539578763621486", 1, .Processed, some 100, 0⟩], []⟩
      1 "w1" 150 3 =
    (⟨[1], [⟨"4539578763621486", 1, .Processed, some 100, 0⟩], []⟩,
     some .insufficientBalance) := by decide

example :
    GetOrdersForAccrual
      ⟨[1], [⟨"a", 1, .Processed, some 5, 3⟩, ⟨"b", 1, .New, none, 2⟩,
             ⟨"c", 1, .Processing, none, 1⟩], []⟩ 100 =
    [("c", .Processing), ("b", .New)] := by decide

end Gophermart

namespace Gophermart

/-- C2: the registration trichotomy of `AddOrder`.  For an unregistered
number a single row owned by the caller with status `NEW` (the spec's
`Pending`) is appended and `alreadyExists = false` is returned, with the
new store holding exactly one row for that number; for a number the same
user already owns, `alreadyExists = true` is returned, the store is
unchanged and exactly one row for the number exists; for a number owned
by a different user the call fails with `ErrOrderOwnedByAnother` and the
store — in particular the existing order's owner — is unchanged. -/
theorem c2_register_trichotomy (st : Store) (userID : Int) (number : String)
    (now : Nat) (hg : OrdersUnique st) :
    (findOrder st.orders number = none →
      AddOrder st userID number now
          = ({ st with
                orders := st.orders ++ [⟨number, userID, .New, none, now⟩] },
             .ok false) ∧
      ((AddOrder st userID number now).1.orders.map
          (fun o => o.number)).count number = 1) ∧
    (∀ row, findOrder st.orders number = some row → row.userId = userID →
      AddOrder st userID number now = (st, .ok true) ∧
      (st.orders.map (fun o => o.number)).count number = 1) ∧
    (∀ row, findOrder st.orders number = some row → row.userId ≠ userID →
      AddOrder st userID number now = (st, .ownedByAnother)) := by
  refine ⟨?_, ?_, ?_⟩
  · intro h
    have habsent : number ∉ st.orders.map (fun o => o.number) := by
      intro hmem
      rcases List.mem_map.mp hmem with ⟨o, ho, hno⟩
      have := List.find?_eq_none.mp h o ho
      simp [hno] at this
    refine ⟨by simp only [AddOrder, h], ?_⟩
    simp only [AddOrder, h]
    rw [List.map_append, List.count_append]
    rw [List.count_eq_zero.mpr habsent]
    simp
  · intro row h hu
    have hrow : row ∈ st.orders := List.mem_of_find?_eq_some h
    have hnum : row.number = number := by
      have := List.find?_some h
      simpa using this
    refine ⟨by simp only [AddOrder, h, if_pos hu], ?_⟩
    exact List.count_eq_one_of_mem hg (List.mem_map.mpr ⟨row, hrow, hnum⟩)
  · intro row h hu
    simp only [AddOrder, h, if_neg hu]

/-- Witness for C2: the second registration of `79927398713` by its
owner reports `alreadyExists = true` with exactly one stored row. -/
theorem c2_witness :
    AddOrder ⟨[1, 2], [⟨"79927398713", 1, .New, none, 0⟩], []⟩ 1
        "79927398713" 9
      = (⟨[1, 2], [⟨"79927398713", 1, .New, none, 0⟩], []⟩, .ok true) :=
  ((c2_register_trichotomy ⟨[1, 2], [⟨"79927398713", 1, .New, none, 0⟩], []⟩
      1 "79927398713" 9 (by decide)).2.1
    ⟨"79927398713", 1, .New, none, 0⟩ (by decide) rfl).1

end Gophermart

namespace Gophermart

/-- C3: the oracle-status mapping of `processAccrualBatch`.  External
`REGISTERED`/`PROCESSING` map to the non-terminal `PROCESSING` (the
spec's `InProgress`), `INVALID` to the terminal `INVALID` (`Rejected`),
`PROCESSED` to the terminal `PROCESSED` (`Scored`) persisting the
accrual when present, and any status outside the protocol's set
`[registered, processing, invalid, processed]` causes no write and no
error: the order table is untouched and the cycle goes on with the
remaining batch. -/
theorem c3_oracle_status_mapping (orders : List OrderRow) (number : String)
    (resp : OrderAccrual) :
    ((resp.status = "REGISTERED" ∨ resp.status = "PROCESSING") →
      applyOracleStatus orders number resp
          = UpdateOrderAccrual orders number .Processing none ∧
      isTerminal .Processing = false) ∧
    (resp.status = "INVALID" →
      applyOracleStatus orders number resp
          = UpdateOrderAccrual orders number .Invalid none ∧
      isTerminal .Invalid = true) ∧
    (resp.status = "PROCESSED" →
      applyOracleStatus orders number resp
          = UpdateOrderAccrual orders number .Processed (resp.accrual.map toCents) ∧
      isTerminal .Processed = true) ∧
    (resp.status ≠ "REGISTERED" → resp.status ≠ "PROCESSING" →
      resp.status ≠ "INVALID" → resp.status ≠ "PROCESSED" →
      applyOracleStatus orders number resp = orders ∧
      ∀ (oracle : String → AccrualReply) (cancelled : Bool) (n : String)
        (s : OStatus) (rest : List (String × OStatus)) (now : Nat),
        oracle n = ⟨some resp, 200, 0, false⟩ →
        runBatchAux oracle cancelled ((n, s) :: rest) orders now
            = ((runBatchAux oracle cancelled rest orders now).1,
               (n, now) :: (runBatchAux oracle cancelled rest orders now).2)) := by
  refine ⟨?_, ?_, ?_, ?_⟩
  · intro h
    exact ⟨by unfold applyOracleStatus; rw [if_pos h], rfl⟩
  · intro h
    refine ⟨?_, rfl⟩
    unfold applyOracleStatus
    rw [if_neg (by simp [h]), if_pos h]
  · intro h
    refine ⟨?_, rfl⟩
    unfold applyOracleStatus
    rw [if_neg (by simp [h]), if_neg (by simp [h]), if_pos h]
  · intro h1 h2 h3 h4
    have hskip : applyOracleStatus orders number resp = orders := by
      unfold applyOracleStatus
      rw [if_neg (by simp [h1, h2]), if_neg h3, if_neg h4]
    refine ⟨hskip, ?_⟩
    intro oracle cancelled n s rest now horacle
    have hskipn : applyOracleStatus orders n resp = orders := by
      unfold applyOracleStatus
      rw [if_neg (by simp [h1, h2]), if_neg h3, if_neg h4]
    simp only [runBatchAux, horacle, hskipn]
    norm_num

/-- Witness for C3: a `PROCESSED` reply with no accrual maps to a
terminal `PROCESSED` write with nil accrual. -/
theorem c3_witness :
    applyOracleStatus [⟨"123", 1, .New, none, 0⟩] "123" ⟨"123", "PROCESSED", none⟩
        = UpdateOrderAccrual [⟨"123", 1, .New, none, 0⟩] "123" .Processed none :=
  ((c3_oracle_status_mapping [⟨"123", 1, .New, none, 0⟩] "123"
      ⟨"123", "PROCESSED", none⟩).2.2.1 rfl).1

end Gophermart

namespace Gophermart

/-- C4 (amended): a reconciliation cycle on a `Pending` order for which
the oracle reports `processed` with decimal accrual `12.30` ends with
the order `Scored` (`PROCESSED`) and stored amount exactly `1230`
minor-units (at this input the compiled program agrees: the IEEE-double
product `12.3 * 100` is exactly `1230.0`, so `int64` yields `1230`); in
general the conversion multiplies by `100` and truncates toward zero
rather than being exact — the accrual `0.025` is stored as `2`
minor-units (again agreeing with the compiled program, where
`0.025 * 100` is exactly `2.5`). -/
theorem c4_processed_accrual_conversion :
    (processAccrualBatch
        (fun _ => ⟨some ⟨"79927398713", "PROCESSED", some (Rat.divInt 123 10)⟩,
                   200, 0, false⟩)
        false ⟨[1], [⟨"79927398713", 1, .New, none, 0⟩], []⟩ 0).1.orders
      = [⟨"79927398713", 1, .Processed, some 1230, 0⟩] ∧
    toCents (Rat.divInt 1 40) = 2 := by
  exact ⟨by decide, by decide⟩

/-- Counterexample for C4 as stated: the conversion is not exact
multiplication by `100` for every decimal value the oracle may report —
for accrual `1/40` (`0.025`) the cycle stores `2` minor-units, yet
`(1/40) * 100 = 5/2 ≠ 2`. -/
theorem c4_conversion_not_always_exact :
    (processAccrualBatch
        (fun _ => ⟨some ⟨"79927398713", "PROCESSED", some (Rat.divInt 1 40)⟩,
                   200, 0, false⟩)
        false ⟨[1], [⟨"79927398713", 1, .New, none, 0⟩], []⟩ 0).1.orders
      = [⟨"79927398713", 1, .Processed, some 2, 0⟩] ∧
    ((toCents (Rat.divInt 1 40) : ℚ) ≠ Rat.divInt 1 40 * 100) := by
  refine ⟨by decide, ?_⟩
  have h : toCents (Rat.divInt 1 40) = 2 := by decide
  rw [h, Rat.divInt_eq_div]
  norm_num

end Gophermart

namespace Gophermart

/-- Appending one withdrawal row adds its amount to the owner's total
and nothing to anyone else's. -/
theorem withdrawnOf_append (ws : List WithdrawalRow) (w : WithdrawalRow)
    (u : Int) :
    withdrawnOf (ws ++ [w]) u
      = withdrawnOf ws u + (if w.userId = u then w.sumCents else 0) := by
  unfold withdrawnOf
  rw [List.filter_append, List.map_append, List.sum_append]
  by_cases h : w.userId = u <;> simp [h]

/-- The withdrawal path never touches the `orders` table (or the user
list). -/
theorem serviceWithdraw_orders (st : Store) (u : Int) (o : String) (q : ℚ)
    (now : Nat) :
    (ServiceCreateWithdrawal st u o q now).1.orders = st.orders := by
  unfold ServiceCreateWithdrawal ServiceCreateWithdrawalWith CreateWithdrawal
  dsimp only
  by_cases h0 : toCents q ≤ 0
  · rw [if_pos h0]
  · rw [if_neg h0]
    by_cases h1 : u ∈ st.users
    · rw [if_pos h1]
      by_cases h2 : toCents q >
          accrualOf st.orders u - withdrawnOf st.withdrawals u
      · rw [if_pos h2]
      · rw [if_neg h2]
        by_cases h3 : (st.withdrawals.any fun w => w.orderNumber == o) = true
        · rw [if_pos h3]
        · rw [if_neg h3]
    · rw [if_neg h1]

/-- One withdrawal request preserves the per-user ledger invariant
`withdrawn ≤ accrued`: a request is only accepted when its amount fits
under the recomputed current balance. -/
theorem serviceWithdraw_balance_inv (st : Store) (u : Int) (op : WOp)
    (h : withdrawnOf st.withdrawals u ≤ accrualOf st.orders u) :
    withdrawnOf
        (ServiceCreateWithdrawal st op.userId op.order op.sum op.now).1.withdrawals
        u
      ≤ accrualOf
          (ServiceCreateWithdrawal st op.userId op.order op.sum op.now).1.orders
          u := by
  rw [serviceWithdraw_orders]
  unfold ServiceCreateWithdrawal ServiceCreateWithdrawalWith CreateWithdrawal
  dsimp only
  by_cases h0 : toCents op.sum ≤ 0
  · rw [if_pos h0]; exact h
  · rw [if_neg h0]
    by_cases h1 : op.userId ∈ st.users
    · rw [if_pos h1]
      by_cases h2 : toCents op.sum >
          accrualOf st.orders op.userId - withdrawnOf st.withdrawals op.userId
      · rw [if_pos h2]; exact h
      · rw [if_neg h2]
        by_cases h3 : (st.withdrawals.any fun w => w.orderNumber == op.order) = true
        · rw [if_pos h3]; exact h
        · rw [if_neg h3]
          show withdrawnOf
              (st.withdrawals ++ [⟨op.userId, op.order, toCents op.sum, op.now⟩]) u
              ≤ accrualOf st.orders u
          rw [withdrawnOf_append]
          by_cases hu : op.userId = u
          · subst hu
            rw [if_pos rfl]
            dsimp only
            omega
          · rw [if_neg hu]
            omega
    · rw [if_neg h1]; exact h

/-- C1: no overdraft.  Starting from any store in which a user's
withdrawn total does not exceed their `Scored` accrual total (in
particular from any store with no withdrawals and non-negative
accruals), after any finite sequence of withdrawal requests — the
serialized image of any set of concurrently issued ones — the user's
withdrawn total still does not exceed their `Scored` accrual total, and
the derived current balance `accrued - withdrawn` is non-negative.
Since the quantification covers every sequence, it covers every prefix
of a longer sequence, i.e. every observable intermediate state; and
since withdrawal requests never modify orders, the accrual total is the
initial one throughout. -/
theorem c1_no_overdraft (st : Store) (u : Int)
    (h : withdrawnOf st.withdrawals u ≤ accrualOf st.orders u) :
    ∀ ops : List WOp,
      withdrawnOf (applyWithdrawOps st ops).withdrawals u
          ≤ accrualOf (applyWithdrawOps st ops).orders u ∧
      0 ≤ accrualOf (applyWithdrawOps st ops).orders u
          - withdrawnOf (applyWithdrawOps st ops).withdrawals u := by
  intro ops
  induction ops generalizing st with
  | nil =>
      simp only [applyWithdrawOps]
      exact ⟨h, by omega⟩
  | cons op rest ih =>
      simp only [applyWithdrawOps]
      exact ih _ (serviceWithdraw_balance_inv st u op h)

/-- Witness for C1: a user with `50000` minor-units scored issues a
withdrawal of `500.00` (accepted) and then one of `0.01` (rejected as
insufficient); the invariant holds in the final state. -/
theorem c1_witness :
    withdrawnOf
        (applyWithdrawOps
          ⟨[1], [⟨"4539578763621486", 1, .Processed, some 50000, 0⟩], []⟩
          [⟨1, "w1", Rat.divInt 50000 100, 1⟩, ⟨1, "w2", Rat.divInt 1 100, 2⟩]).withdrawals
        1
      ≤ accrualOf
          (applyWithdrawOps
            ⟨[1], [⟨"4539578763621486", 1, .Processed, some 50000, 0⟩], []⟩
            [⟨1, "w1", Rat.divInt 50000 100, 1⟩, ⟨1, "w2", Rat.divInt 1 100, 2⟩]).orders
          1 :=
  (c1_no_overdraft
    ⟨[1], [⟨"4539578763621486", 1, .Processed, some 50000, 0⟩], []⟩ 1
    (by decide)
    [⟨1, "w1", Rat.divInt 50000 100, 1⟩, ⟨1, "w2", Rat.divInt 1 100, 2⟩]).1

end Gophermart


namespace Gophermart

/-- `updRow` leaves rows with a different number untouched. -/
theorem updRow_of_ne (number : String) (status : OStatus)
    (accrualCents : Option Int) {r : OrderRow} (h : r.number ≠ number) :
    updRow number status accrualCents r = r := by
  unfold updRow
  rw [if_neg h]

/-- `updRow` never changes the `number` column. -/
theorem updRow_number (number : String) (status : OStatus)
    (accrualCents : Option Int) (r : OrderRow) :
    (updRow number status accrualCents r).number = r.number := by
  unfold updRow
  by_cases h : r.number = number <;> cases accrualCents <;> simp [h]

/-- The single-row SQL update preserves the `number` column of every
row. -/
theorem UpdateOrderAccrual_numbers (orders : List OrderRow) (number : String)
    (status : OStatus) (accrualCents : Option Int) :
    (UpdateOrderAccrual orders number status accrualCents).map
        (fun o => o.number)
      = orders.map (fun o => o.number) := by
  unfold UpdateOrderAccrual
  rw [List.map_map]
  exact List.map_congr_left (fun r _ => updRow_number number status accrualCents r)

/-- A row whose number differs from the updated one survives the update
verbatim. -/
theorem mem_UpdateOrderAccrual_of_ne {r : OrderRow} {orders : List OrderRow}
    {number : String} (status : OStatus) (accrualCents : Option Int)
    (hne : r.number ≠ number) (hr : r ∈ orders) :
    r ∈ UpdateOrderAccrual orders number status accrualCents := by
  unfold UpdateOrderAccrual
  have : updRow number status accrualCents r = r :=
    updRow_of_ne number status accrualCents hne
  exact this ▸ List.mem_map_of_mem _ hr

/-- `applyOracleStatus` preserves the `number` column of every row. -/
theorem applyOracleStatus_numbers (orders : List OrderRow) (number : String)
    (resp : OrderAccrual) :
    (applyOracleStatus orders number resp).map (fun o => o.number)
      = orders.map (fun o => o.number) := by
  unfold applyOracleStatus
  split
  · exact UpdateOrderAccrual_numbers orders number _ _
  · split
    · exact UpdateOrderAccrual_numbers orders number _ _
    · split
      · exact UpdateOrderAccrual_numbers orders number _ _
      · rfl

/-- A row whose number differs from the reported one survives
`applyOracleStatus` verbatim. -/
theorem mem_applyOracleStatus_of_ne {r : OrderRow} {orders : List OrderRow}
    {number : String} (resp : OrderAccrual) (hne : r.number ≠ number)
    (hr : r ∈ orders) :
    r ∈ applyOracleStatus orders number resp := by
  unfold applyOracleStatus
  split
  · exact mem_UpdateOrderAccrual_of_ne _ _ hne hr
  · split
    · exact mem_UpdateOrderAccrual_of_ne _ _ hne hr
    · split
      · exact mem_UpdateOrderAccrual_of_ne _ _ hne hr
      · exact hr

/-- Under the uniqueness constraint, `findOrder` at a stored row's
number returns exactly that row. -/
theorem findOrder_mem_unique {orders : List OrderRow} {r : OrderRow}
    (hnd : (orders.map (fun o => o.number)).Nodup) (hr : r ∈ orders) :
    findOrder orders r.number = some r := by
  induction orders with
  | nil => cases hr
  | cons a rest ih =>
      rw [List.map_cons, List.nodup_cons] at hnd
      rcases List.mem_cons.mp hr with heq | hmem
      · subst heq
        unfold findOrder
        simp
      · have hna : ¬(a.number == r.number) = true := by
          simp only [beq_iff_eq]
          intro heq
          exact hnd.1 (heq ▸ List.mem_map.mpr ⟨r, hmem, rfl⟩)
        unfold findOrder
        rw [List.find?_cons_of_neg (p := fun o => o.number == r.number) rest hna]
        exact ih hnd.2 hmem

end Gophermart

namespace Gophermart

/-- A cycle never changes the `number` column of any row: every write
goes through `UpdateOrderAccrual`. -/
theorem runBatchAux_numbers (oracle : String → AccrualReply) (cancelled : Bool) :
    ∀ (batch : List (String × OStatus)) (orders : List OrderRow) (now : Nat),
      ((runBatchAux oracle cancelled batch orders now).1).map (fun o => o.number)
        = orders.map (fun o => o.number) := by
  intro batch
  induction batch with
  | nil => intro orders now; rfl
  | cons e rest ih =>
      obtain ⟨n, s⟩ := e
      intro orders now
      simp only [runBatchAux]
      by_cases h1 : (oracle n).isErr = true
      · rw [if_pos h1]; exact ih orders now
      rw [if_neg h1]
      by_cases h2 : (oracle n).statusCode = 0
      · rw [if_pos h2]; exact ih orders now
      rw [if_neg h2]
      by_cases h3 : (oracle n).statusCode = 429
      · rw [if_pos h3]
        by_cases h4 : 0 < (oracle n).retryAfter
        · rw [if_pos h4]
          by_cases h5 : cancelled = true
          · rw [if_pos h5]
          · rw [if_neg h5]; exact ih orders _
        · rw [if_neg h4]; exact ih orders now
      · rw [if_neg h3]
        cases hresp : (oracle n).resp with
        | none => dsimp only; exact ih orders now
        | some resp =>
            dsimp only
            rw [ih _ now, applyOracleStatus_numbers]

/-- A row is preserved verbatim by a cycle provided every batch entry
bearing its number replies with a pausing `429` (in particular when no
batch entry bears its number at all). -/
theorem runBatchAux_mem_preserved (oracle : String → AccrualReply)
    (cancelled : Bool) :
    ∀ (batch : List (String × OStatus)) (orders : List OrderRow) (now : Nat)
      (r : OrderRow), r ∈ orders →
      (∀ e ∈ batch, e.1 = r.number → pausing (oracle e.1) = true) →
      r ∈ (runBatchAux oracle cancelled batch orders now).1 := by
  intro batch
  induction batch with
  | nil => intro orders now r hr _; exact hr
  | cons e rest ih =>
      obtain ⟨n, s⟩ := e
      intro orders now r hr hskip
      have hrest : ∀ e ∈ rest, e.1 = r.number → pausing (oracle e.1) = true :=
        fun e he => hskip e (List.mem_cons_of_mem _ he)
      simp only [runBatchAux]
      by_cases h1 : (oracle n).isErr = true
      · rw [if_pos h1]; exact ih orders now r hr hrest
      rw [if_neg h1]
      by_cases h2 : (oracle n).statusCode = 0
      · rw [if_pos h2]; exact ih orders now r hr hrest
      rw [if_neg h2]
      by_cases h3 : (oracle n).statusCode = 429
      · rw [if_pos h3]
        by_cases h4 : 0 < (oracle n).retryAfter
        · rw [if_pos h4]
          by_cases h5 : cancelled = true
          · rw [if_pos h5]; exact hr
          · rw [if_neg h5]; exact ih orders _ r hr hrest
        · rw [if_neg h4]; exact ih orders now r hr hrest
      · rw [if_neg h3]
        have hne : n ≠ r.number := by
          intro heq
          have := hskip (n, s) (List.mem_cons_self _ _) heq
          unfold pausing at this
          simp [h3] at this
        cases hresp : (oracle n).resp with
        | none => dsimp only; exact ih orders now r hr hrest
        | some resp =>
            dsimp only
            exact ih _ now r
              (mem_applyOracleStatus_of_ne resp (fun hh => hne hh.symm) hr) hrest

/-- Every oracle call of a cycle happens no earlier than the cycle
position's current instant. -/
theorem runBatchAux_time_mono (oracle : String → AccrualReply)
    (cancelled : Bool) :
    ∀ (batch : List (String × OStatus)) (orders : List OrderRow) (now : Nat)
      (c : String × Nat), c ∈ (runBatchAux oracle cancelled batch orders now).2 →
      now ≤ c.2 := by
  intro batch
  induction batch with
  | nil => intro orders now c hc; cases hc
  | cons e rest ih =>
      obtain ⟨n, s⟩ := e
      intro orders now c hc
      simp only [runBatchAux] at hc
      by_cases h1 : (oracle n).isErr = true
      · rw [if_pos h1] at hc
        rcases List.mem_cons.mp hc with rfl | h
        · exact le_refl _
        · exact ih orders now c h
      rw [if_neg h1] at hc
      by_cases h2 : (oracle n).statusCode = 0
      · rw [if_pos h2] at hc
        rcases List.mem_cons.mp hc with rfl | h
        · exact le_refl _
        · exact ih orders now c h
      rw [if_neg h2] at hc
      by_cases h3 : (oracle n).statusCode = 429
      · rw [if_pos h3] at hc
        by_cases h4 : 0 < (oracle n).retryAfter
        · rw [if_pos h4] at hc
          by_cases h5 : cancelled = true
          · rw [if_pos h5] at hc
            rcases List.mem_cons.mp hc with rfl | h
            · exact le_refl _
            · cases h
          · rw [if_neg h5] at hc
            rcases List.mem_cons.mp hc with rfl | h
            · exact le_refl _
            · exact le_trans (Nat.le_add_right _ _) (ih orders _ c h)
        · rw [if_neg h4] at hc
          rcases List.mem_cons.mp hc with rfl | h
          · exact le_refl _
          · exact ih orders now c h
      · rw [if_neg h3] at hc
        cases hresp : (oracle n).resp with
        | none =>
            rw [hresp] at hc
            dsimp only at hc
            rcases List.mem_cons.mp hc with rfl | h
            · exact le_refl _
            · exact ih orders now c h
        | some resp =>
            rw [hresp] at hc
            dsimp only at hc
            rcases List.mem_cons.mp hc with rfl | h
            · exact le_refl _
            · exact ih _ now c h

/-- Every recorded oracle call names an order of the batch. -/
theorem runBatchAux_call_names (oracle : String → AccrualReply)
    (cancelled : Bool) :
    ∀ (batch : List (String × OStatus)) (orders : List OrderRow) (now : Nat)
      (c : String × Nat), c ∈ (runBatchAux oracle cancelled batch orders now).2 →
      c.1 ∈ batch.map Prod.fst := by
  intro batch
  induction batch with
  | nil => intro orders now c hc; cases hc
  | cons e rest ih =>
      obtain ⟨n, s⟩ := e
      intro orders now c hc
      simp only [runBatchAux] at hc
      rw [List.map_cons]
      by_cases h1 : (oracle n).isErr = true
      · rw [if_pos h1] at hc
        rcases List.mem_cons.mp hc with rfl | h
        · exact List.mem_cons_self _ _
        · exact List.mem_cons_of_mem _ (ih orders now c h)
      rw [if_neg h1] at hc
      by_cases h2 : (oracle n).statusCode = 0
      · rw [if_pos h2] at hc
        rcases List.mem_cons.mp hc with rfl | h
        · exact List.mem_cons_self _ _
        · exact List.mem_cons_of_mem _ (ih orders now c h)
      rw [if_neg h2] at hc
      by_cases h3 : (oracle n).statusCode = 429
      · rw [if_pos h3] at hc
        by_cases h4 : 0 < (oracle n).retryAfter
        · rw [if_pos h4] at hc
          by_cases h5 : cancelled = true
          · rw [if_pos h5] at hc
            rcases List.mem_cons.mp hc with rfl | h
            · exact List.mem_cons_self _ _
            · cases h
          · rw [if_neg h5] at hc
            rcases List.mem_cons.mp hc with rfl | h
            · exact List.mem_cons_self _ _
            · exact List.mem_cons_of_mem _ (ih orders _ c h)
        · rw [if_neg h4] at hc
          rcases List.mem_cons.mp hc with rfl | h
          · exact List.mem_cons_self _ _
          · exact List.mem_cons_of_mem _ (ih orders now c h)
      · rw [if_neg h3] at hc
        cases hresp : (oracle n).resp with
        | none =>
            rw [hresp] at hc
            dsimp only at hc
            rcases List.mem_cons.mp hc with rfl | h
            · exact List.mem_cons_self _ _
            · exact List.mem_cons_of_mem _ (ih orders now c h)
        | some resp =>
            rw [hresp] at hc
            dsimp only at hc
            rcases List.mem_cons.mp hc with rfl | h
            · exact List.mem_cons_self _ _
            · exact List.mem_cons_of_mem _ (ih _ now c h)

end Gophermart

namespace Gophermart

/-- Propagating a predicate through `dropLast` of a cons. -/
theorem mem_dropLast_cons {α : Type} {P : α → Prop} {a : α} {l : List α}
    (ha : P a) (hl : ∀ c ∈ l.dropLast, P c) : ∀ c ∈ (a :: l).dropLast, P c := by
  intro c hc
  cases l with
  | nil => simp at hc
  | cons b t =>
      rw [List.dropLast_cons₂] at hc
      rcases List.mem_cons.mp hc with rfl | h
      · exact ha
      · exact hl c h

/-- In a cancelled run, every oracle call but possibly the very last
got a non-pausing reply: a pausing `429` aborts the cycle at once, so no
call follows it. -/
theorem runBatchAux_cancel_prompt (oracle : String → AccrualReply) :
    ∀ (batch : List (String × OStatus)) (orders : List OrderRow) (now : Nat),
      ∀ c ∈ ((runBatchAux oracle true batch orders now).2).dropLast,
        pausing (oracle c.1) = false := by
  intro batch
  induction batch with
  | nil => intro orders now c hc; simp [runBatchAux] at hc
  | cons e rest ih =>
      obtain ⟨n, s⟩ := e
      intro orders now
      simp only [runBatchAux]
      by_cases h1 : (oracle n).isErr = true
      · rw [if_pos h1]
        exact mem_dropLast_cons (by simp [pausing, h1]) (ih orders now)
      rw [if_neg h1]
      by_cases h2 : (oracle n).statusCode = 0
      · rw [if_pos h2]
        exact mem_dropLast_cons (by simp [pausing, h2]) (ih orders now)
      rw [if_neg h2]
      by_cases h3 : (oracle n).statusCode = 429
      · rw [if_pos h3]
        by_cases h4 : 0 < (oracle n).retryAfter
        · rw [if_pos h4, if_pos trivial]
          intro c hc
          simp at hc
        · rw [if_neg h4]
          exact mem_dropLast_cons (by simp [pausing, h4]) (ih orders now)
      · rw [if_neg h3]
        cases hresp : (oracle n).resp with
        | none =>
            dsimp only
            exact mem_dropLast_cons (by simp [pausing, h3]) (ih orders now)
        | some resp =>
            dsimp only
            exact mem_dropLast_cons (by simp [pausing, h3]) (ih _ now)

/-- In an uncancelled run, once some call receives a pausing `429`
reply, every later call of the cycle is issued only after the announced
`Retry-After` pause has elapsed. -/
theorem runBatchAux_pause_delay (oracle : String → AccrualReply) (n : String)
    (hpause : pausing (oracle n) = true) :
    ∀ (batch : List (String × OStatus)) (orders : List OrderRow) (now : Nat)
      (pre post : List (String × Nat)) (t : Nat),
      (runBatchAux oracle false batch orders now).2 = pre ++ (n, t) :: post →
      ∀ c ∈ post, t + (oracle n).retryAfter ≤ c.2 := by
  have hperr : (oracle n).isErr = false := by
    unfold pausing at hpause
    simp only [Bool.and_eq_true, Bool.not_eq_true'] at hpause
    exact hpause.1.1
  have hpcode : (oracle n).statusCode = 429 := by
    unfold pausing at hpause
    simp only [Bool.and_eq_true, beq_iff_eq] at hpause
    exact hpause.1.2
  have hpra : 0 < (oracle n).retryAfter := by
    unfold pausing at hpause
    simp only [Bool.and_eq_true, decide_eq_true_eq] at hpause
    exact hpause.2
  intro batch
  induction batch with
  | nil =>
      intro orders now pre post t hsplit
      simp only [runBatchAux] at hsplit
      exact absurd hsplit.symm (List.append_ne_nil_of_right_ne_nil _ (by simp))
  | cons e rest ih =>
      obtain ⟨m, s⟩ := e
      intro orders now pre post t hsplit
      simp only [runBatchAux] at hsplit
      by_cases h1 : (oracle m).isErr = true
      · rw [if_pos h1] at hsplit
        cases pre with
        | nil =>
            rw [List.nil_append] at hsplit
            injection hsplit with hhead htail
            have hm : m = n := congrArg Prod.fst hhead
            rw [hm, hperr] at h1
            exact Bool.noConfusion h1
        | cons q pre' =>
            rw [List.cons_append] at hsplit
            injection hsplit with hhead htail
            exact ih orders now pre' post t htail
      rw [if_neg h1] at hsplit
      by_cases h2 : (oracle m).statusCode = 0
      · rw [if_pos h2] at hsplit
        cases pre with
        | nil =>
            rw [List.nil_append] at hsplit
            injection hsplit with hhead htail
            have hm : m = n := congrArg Prod.fst hhead
            rw [hm] at h2
            omega
        | cons q pre' =>
            rw [List.cons_append] at hsplit
            injection hsplit with hhead htail
            exact ih orders now pre' post t htail
      rw [if_neg h2] at hsplit
      by_cases h3 : (oracle m).statusCode = 429
      · rw [if_pos h3] at hsplit
        by_cases h4 : 0 < (oracle m).retryAfter
        · rw [if_pos h4, if_neg Bool.false_ne_true] at hsplit
          cases pre with
          | nil =>
              rw [List.nil_append] at hsplit
              injection hsplit with hhead htail
              have hm : m = n := congrArg Prod.fst hhead
              have ht : now = t := congrArg Prod.snd hhead
              intro c hc
              have hmono := runBatchAux_time_mono oracle false rest orders
                (now + (oracle m).retryAfter) c (htail ▸ hc)
              rw [hm] at hmono
              omega
          | cons q pre' =>
              rw [List.cons_append] at hsplit
              injection hsplit with hhead htail
              exact ih orders _ pre' post t htail
        · rw [if_neg h4] at hsplit
          cases pre with
          | nil =>
              rw [List.nil_append] at hsplit
              injection hsplit with hhead htail
              have hm : m = n := congrArg Prod.fst hhead
              rw [hm] at h4
              exact absurd hpra h4
          | cons q pre' =>
              rw [List.cons_append] at hsplit
              injection hsplit with hhead htail
              exact ih orders now pre' post t htail
      · rw [if_neg h3] at hsplit
        cases hresp : (oracle m).resp with
        | none =>
            rw [hresp] at hsplit
            dsimp only at hsplit
            cases pre with
            | nil =>
                rw [List.nil_append] at hsplit
                injection hsplit with hhead htail
                have hm : m = n := congrArg Prod.fst hhead
                rw [hm] at h3
                exact absurd hpcode h3
            | cons q pre' =>
                rw [List.cons_append] at hsplit
                injection hsplit with hhead htail
                exact ih orders now pre' post t htail
        | some resp =>
            rw [hresp] at hsplit
            dsimp only at hsplit
            cases pre with
            | nil =>
                rw [List.nil_append] at hsplit
                injection hsplit with hhead htail
                have hm : m = n := congrArg Prod.fst hhead
                rw [hm] at h3
                exact absurd hpcode h3
            | cons q pre' =>
                rw [List.cons_append] at hsplit
                injection hsplit with hhead htail
                exact ih _ now pre' post t htail

end Gophermart

namespace Gophermart

/-- Every fetched row comes from the `WHERE status IN (NEW, PROCESSING)`
filter. -/
theorem fetchRows_subset_filter (st : Store) (limit : Nat) :
    ∀ o ∈ fetchRows st limit, o ∈ st.orders.filter awaitingAccrual := by
  intro o ho
  unfold fetchRows at ho
  exact (List.perm_insertionSort submittedBefore _).subset
    ((List.take_sublist _ _).subset ho)

/-- The fetched rows inherit the store's number uniqueness. -/
theorem fetchRows_numbers_nodup (st : Store) (hg : OrdersUnique st)
    (limit : Nat) :
    ((fetchRows st limit).map (fun o => o.number)).Nodup := by
  have h1 : ((st.orders.filter awaitingAccrual).map (fun o => o.number)).Nodup :=
    List.Nodup.sublist (List.Sublist.map _ (List.filter_sublist _)) hg
  have hperm : List.Perm
      (((st.orders.filter awaitingAccrual).insertionSort submittedBefore).map
        (fun o => o.number))
      ((st.orders.filter awaitingAccrual).map (fun o => o.number)) :=
    (List.perm_insertionSort submittedBefore _).map _
  have h2 := hperm.nodup_iff.mpr h1
  exact List.Nodup.sublist (List.Sublist.map _ (List.take_sublist _ _)) h2

/-- C7: terminal statuses are absorbing.  The fetched batch contains
only `NEW`/`PROCESSING` (`Pending`/`InProgress`) orders, holds at most
100 of them, is ordered oldest-submitted-first, and consequently a cycle
— the only writer of order status — leaves every `PROCESSED`/`INVALID`
(`Scored`/`Rejected`) row byte-for-byte unchanged: looking its number up
after the cycle still returns the very same row, for every oracle
behaviour and with or without cancellation. -/
theorem c7_terminal_absorbing (st : Store) (oracle : String → AccrualReply)
    (cancelled : Bool) (now : Nat) (hg : OrdersUnique st) :
    (∀ e ∈ GetOrdersForAccrual st 100,
       e.2 = OStatus.New ∨ e.2 = OStatus.Processing) ∧
    (GetOrdersForAccrual st 100).length ≤ 100 ∧
    (fetchRows st 100).Pairwise submittedBefore ∧
    (∀ r ∈ st.orders, isTerminal r.status = true →
       findOrder (processAccrualBatch oracle cancelled st now).1.orders r.number
         = some r) := by
  refine ⟨?_, ?_, ?_, ?_⟩
  · intro e he
    unfold GetOrdersForAccrual at he
    rcases List.mem_map.mp he with ⟨o, ho, rfl⟩
    have hf := (List.mem_filter.mp (fetchRows_subset_filter st 100 o ho)).2
    unfold awaitingAccrual at hf
    simp only [Bool.or_eq_true, beq_iff_eq] at hf
    exact hf
  · unfold GetOrdersForAccrual
    rw [List.length_map]
    unfold fetchRows
    exact List.length_take_le _ _
  · exact List.Pairwise.sublist (List.take_sublist _ _)
      (List.sorted_insertionSort submittedBefore
        (st.orders.filter awaitingAccrual))
  · intro r hr hterm
    have hnob : ∀ e ∈ GetOrdersForAccrual st 100, e.1 ≠ r.number := by
      intro e he heq
      rcases List.mem_map.mp he with ⟨o, ho, rfl⟩
      have hf := List.mem_filter.mp (fetchRows_subset_filter st 100 o ho)
      have hor : o = r := List.inj_on_of_nodup_map hg hf.1 hr heq
      have hawait := hf.2
      rw [hor] at hawait
      cases hst : r.status <;>
        simp [awaitingAccrual, isTerminal, hst] at hawait hterm
    have hmem : r ∈ (runBatchAux oracle cancelled (GetOrdersForAccrual st 100)
        st.orders now).1 :=
      runBatchAux_mem_preserved oracle cancelled _ st.orders now r hr
        (fun e he heq => absurd heq (hnob e he))
    have hnum := runBatchAux_numbers oracle cancelled
      (GetOrdersForAccrual st 100) st.orders now
    have hnd : (((runBatchAux oracle cancelled (GetOrdersForAccrual st 100)
        st.orders now).1).map (fun o => o.number)).Nodup := by
      rw [hnum]; exact hg
    show findOrder (runBatchAux oracle cancelled (GetOrdersForAccrual st 100)
        st.orders now).1 r.number = some r
    exact findOrder_mem_unique hnd hmem

/-- Witness for C7: with a terminal and a pending order stored, a cycle
in which the oracle always answers `204` leaves the terminal row
unchanged. -/
theorem c7_witness :
    findOrder
        (processAccrualBatch (fun _ => ⟨none, 204, 0, false⟩) false
          ⟨[1], [⟨"a1", 1, .Processed, some 5, 0⟩, ⟨"b2", 1, .New, none, 1⟩], []⟩
          0).1.orders "a1"
      = some ⟨"a1", 1, .Processed, some 5, 0⟩ :=
  ((c7_terminal_absorbing
      ⟨[1], [⟨"a1", 1, .Processed, some 5, 0⟩, ⟨"b2", 1, .New, none, 1⟩], []⟩
      (fun _ => ⟨none, 204, 0, false⟩) false 0 (by decide)).2.2.2
    ⟨"a1", 1, .Processed, some 5, 0⟩ (by decide) rfl)

end Gophermart

namespace Gophermart

/-- C6: rate-limit backpressure.  Suppose a batch entry `n` is answered
by the oracle with a pausing `429` (`retryAfter > 0`).  Then (1) in the
uncancelled cycle, every oracle call recorded after the call to `n` is
issued only once the announced `retryAfter` pause has elapsed; (2) with
or without cancellation the order that triggered the rate limit receives
no status write — its row is unchanged after the cycle; (3) it is still
`NEW`/`PROCESSING`, so it satisfies the next fetch's criterion, and
whenever the awaiting backlog fits the 100-row batch bound it is part of
the next cycle's batch; (4) when the pause observes cancellation the
cycle returns promptly: a pausing `429` is never followed by another
oracle call; and (5) a `429` with `retryAfter = 0` resumes instantly —
the remaining batch is processed at the same instant. -/
theorem c6_rate_limited_backpressure (st : Store)
    (oracle : String → AccrualReply) (now : Nat) (n : String) (s0 : OStatus)
    (r0 : OrderRow) (hg : OrdersUnique st)
    (hb : (n, s0) ∈ GetOrdersForAccrual st 100)
    (hr : r0 ∈ st.orders) (hn : r0.number = n)
    (hpause : pausing (oracle n) = true) :
    (∀ pre post t,
       (processAccrualBatch oracle false st now).2 = pre ++ (n, t) :: post →
       ∀ c ∈ post, t + (oracle n).retryAfter ≤ c.2) ∧
    (∀ cancelled : Bool,
       findOrder (processAccrualBatch oracle cancelled st now).1.orders n
         = some r0) ∧
    awaitingAccrual r0 = true ∧
    (∀ cancelled : Bool,
       ((processAccrualBatch oracle cancelled st now).1.orders.filter
           awaitingAccrual).length ≤ 100 →
       (n, r0.status) ∈
         GetOrdersForAccrual (processAccrualBatch oracle cancelled st now).1 100) ∧
    (∀ c ∈ ((processAccrualBatch oracle true st now).2).dropLast,
       pausing (oracle c.1) = false) ∧
    (∀ (m : String) (s : OStatus) (rest : List (String × OStatus))
       (orders : List OrderRow) (t : Nat),
       (oracle m).isErr = false → (oracle m).statusCode = 429 →
       (oracle m).retryAfter = 0 →
       runBatchAux oracle false ((m, s) :: rest) orders t
         = ((runBatchAux oracle false rest orders t).1,
            (m, t) :: (runBatchAux oracle false rest orders t).2)) := by
  have hmemgen : ∀ cancelled : Bool,
      r0 ∈ (runBatchAux oracle cancelled (GetOrdersForAccrual st 100)
        st.orders now).1 := by
    intro cancelled
    refine runBatchAux_mem_preserved oracle cancelled _ st.orders now r0 hr ?_
    intro e _ heq
    rw [heq, hn]
    exact hpause
  have hfindgen : ∀ cancelled : Bool,
      findOrder (runBatchAux oracle cancelled (GetOrdersForAccrual st 100)
        st.orders now).1 n = some r0 := by
    intro cancelled
    have hnum := runBatchAux_numbers oracle cancelled
      (GetOrdersForAccrual st 100) st.orders now
    have hnd : (((runBatchAux oracle cancelled (GetOrdersForAccrual st 100)
        st.orders now).1).map (fun o => o.number)).Nodup := by
      rw [hnum]; exact hg
    rw [← hn]
    exact findOrder_mem_unique hnd (hmemgen cancelled)
  have hawait : awaitingAccrual r0 = true := by
    unfold GetOrdersForAccrual at hb
    rcases List.mem_map.mp hb with ⟨o, ho, hpair⟩
    have hf := List.mem_filter.mp (fetchRows_subset_filter st 100 o ho)
    have honum : o.number = n := congrArg Prod.fst hpair
    have hor : o = r0 := List.inj_on_of_nodup_map hg hf.1 hr (by rw [honum, hn])
    rw [← hor]
    exact hf.2
  refine ⟨?_, hfindgen, hawait, ?_, ?_, ?_⟩
  · intro pre post t hsplit
    exact runBatchAux_pause_delay oracle n hpause _ st.orders now pre post t hsplit
  · intro cancelled hlen
    have hmemf : r0 ∈ (processAccrualBatch oracle cancelled st now).1.orders.filter
        awaitingAccrual :=
      List.mem_filter.mpr ⟨hmemgen cancelled, hawait⟩
    unfold GetOrdersForAccrual fetchRows
    have hlen2 :
        (((processAccrualBatch oracle cancelled st now).1.orders.filter
            awaitingAccrual).insertionSort submittedBefore).length ≤ 100 := by
      rw [List.length_insertionSort]
      exact hlen
    rw [List.take_of_length_le hlen2]
    refine List.mem_map.mpr ⟨r0, ?_, by rw [hn]⟩
    exact ((List.perm_insertionSort submittedBefore _).mem_iff).mpr hmemf
  · exact runBatchAux_cancel_prompt oracle _ st.orders now
  · intro m s rest orders t he hc hra
    simp only [runBatchAux]
    rw [if_neg (by simp [he]), if_neg (by simp [hc]), if_pos hc,
        if_neg (by simp [hra])]

/-- Witness for C6: a single pending order whose oracle reply is a
pausing `429` keeps its row unchanged through the cycle. -/
theorem c6_witness :
    findOrder
        (processAccrualBatch (fun _ => ⟨none, 429, 5, false⟩) false
          ⟨[1], [⟨"n1", 1, .New, none, 0⟩], []⟩ 0).1.orders "n1"
      = some ⟨"n1", 1, .New, none, 0⟩ :=
  ((c6_rate_limited_backpressure ⟨[1], [⟨"n1", 1, .New, none, 0⟩], []⟩
      (fun _ => ⟨none, 429, 5, false⟩) 0 "n1" .New ⟨"n1", 1, .New, none, 0⟩
      (by decide) (by decide) (by decide) rfl (by decide)).2.1 false)

end Gophermart

namespace Gophermart

/-- Counterexample for C5 as stated: the client the service actually
calls performs no internal retries of transient failures.  With a
transport error on the first exchange and a successful `200` available
at every later attempt, `GetOrderAccrual` still returns the error
four-tuple `(nil, 0, 0, err)` — had even a single internal retry been
performed, the call would have succeeded with the decoded body. -/
theorem c5_no_internal_retry_counterexample :
    GetOrderAccrual
        (fun i => if i = 0 then ⟨true, 0, none, none⟩
                  else ⟨false, 200, none, some ⟨"123", "PROCESSED", none⟩⟩)
      = ⟨none, 0, 0, true⟩ := by decide

/-- C5 (amended): the oracle client the reconciliation loop uses — the
plain-`http.Client` `GetOrderAccrual` returning
`(resp, statusCode, retryAfter, err)` — performs no internal retries:
its result is fully determined by the single HTTP exchange it makes, so
transport errors and unexpected non-`200`/`204`/`429` statuses (`5xx`
included) surface immediately as errors, left for a later
reconciliation cycle.  A `429` is never auto-retried: it is surfaced at
once, with a nil error, carrying the server-provided `Retry-After`
hint, which defaults to zero when the header is absent, empty or
unparseable. -/
theorem c5_plain_client_immediate (replies replies' : Nat → HttpReply) :
    (replies 0 = replies' 0 →
       GetOrderAccrual replies = GetOrderAccrual replies') ∧
    ((replies 0).isErr = true →
       GetOrderAccrual replies = ⟨none, 0, 0, true⟩) ∧
    ((replies 0).isErr = false → 500 ≤ (replies 0).statusCode →
       GetOrderAccrual replies = ⟨none, (replies 0).statusCode, 0, true⟩) ∧
    ((replies 0).isErr = false → (replies 0).statusCode = 429 →
       GetOrderAccrual replies
         = ⟨none, 429, parseRetryAfter (replies 0).retryAfterHeader, false⟩) ∧
    (parseRetryAfter none = 0 ∧ parseRetryAfter (some "") = 0 ∧
     ∀ s : String, parseIntStr s = none → parseRetryAfter (some s) = 0) := by
  refine ⟨?_, ?_, ?_, ?_, rfl, rfl, ?_⟩
  · intro h
    unfold GetOrderAccrual
    rw [h]
  · intro he
    unfold GetOrderAccrual
    rw [if_pos he]
  · intro he h5
    unfold GetOrderAccrual
    rw [if_neg (by simp [he]), if_neg (by simp; omega),
        if_neg (by simp; omega), if_pos (by simp; omega)]
  · intro he hc
    unfold GetOrderAccrual
    rw [if_neg (by simp [he]), if_pos (by simp [hc])]
  · intro s h
    unfold parseRetryAfter
    dsimp only
    by_cases hs : s = ""
    · rw [if_pos hs]
    · rw [if_neg hs, h]

/-- Witness for C5 (amended): a first-exchange `429` with
`Retry-After: 7` is surfaced immediately as `(nil, 429, 7s, nil)`. -/
theorem c5_witness :
    GetOrderAccrual (fun _ => ⟨false, 429, some "7", none⟩)
      = ⟨none, 429, 7, false⟩ := by
  have h :=
    ((c5_plain_client_immediate (fun _ => ⟨false, 429, some "7", none⟩)
        (fun _ => ⟨false, 429, some "7", none⟩)).2.2.2.1 rfl rfl)
  rw [h]
  decide

end Gophermart
